import Mathlib

/-!
# Token-bucket rate limiter and example name generator

A shallow embedding of `pkg/rate-limiter/implementation.go` (`NewRateLimiter`,
`TokenBucket.Serve`, `min`) and of `ConcreteNameGenerator` from
`examples/pipeline/main.go`, followed by the properties established about them.

Modelling conventions.

* An `int64` value is an `Int`; every arithmetic operation of `Serve` passes its
  exact result through a function `ar : Int → Int`.  The arithmetic of the code is
  `ar := int64`, the two's complement wrap-around of Go; a property stated for every
  `ar` holds whatever the overflow behaviour.  That no operation overflows is the
  hypothesis `Serve.fits` on the steps of the `int64` execution.
* A `TimeGetter` is a Go `func() int64`; it is modelled by the stream of the values
  its successive calls return (`tg i` is the value of call number `i`, from 0).
* The channel `in` is the list of messages it delivers before it is closed.  The
  channel `out` is observed through the trace of channel operations `Serve` has
  performed; the receiver of `out` is always ready.
* `Serve` is a step function on an explicit state; `Serve ... n` is the state after
  `n` steps.
-/

namespace rateLimit

/-! ## Data model -/

/-- The Go type `TimeGetter func() int64`, as the stream of its successive results. -/
abbrev TimeGetter := Nat → Int

/-- The constant `TokenBucketAlgorithm RateLimitingAlgorithm = iota`. -/
def TokenBucketAlgorithm : Int := 0

/-- The struct `Config`; a nil `TimeGetter` is `none`. -/
structure Config where
  Algorithm : Int
  TimeGetter : Option TimeGetter
  WaitTime : Int
  Rate : Int

/-- The struct `TokenBucket`. -/
structure TokenBucket where
  config : Config
  tokens : Int
  timestamp : Int

/-- The function `NewRateLimiter`.  `wallClock` stands for `time.Now().Unix()`, the
default time source; the result is `none` for the nil interface value. -/
def NewRateLimiter (wallClock : TimeGetter) (c : Config) : Option TokenBucket :=
  let c : Config :=
    match c.TimeGetter with
    | none => { c with TimeGetter := some wallClock }
    | some _ => c
  if c.Algorithm = TokenBucketAlgorithm then
    some { config := c, tokens := 0, timestamp := 0 }
  else
    none

/-- The helper `min(a, b int64) int64`. -/
def min (a b : Int) : Int := if a < b then a else b

/-- Two's complement wrap-around of an exact result to `int64`. -/
def int64 (x : Int) : Int := (x + 9223372036854775808) % 18446744073709551616 - 9223372036854775808

/-- The values an `int64` can hold. -/
def InRange (x : Int) : Prop := -9223372036854775808 ≤ x ∧ x < 9223372036854775808

instance InRange.decidable (x : Int) : Decidable (InRange x) := instDecidableAnd

/-! ## `TokenBucket.Serve` as a state machine -/

/-- Channel operations performed by `Serve`, and its return.  `send m ts` is the
statement `out <- m`, recorded with the value `t.timestamp` holds at that moment;
`close` is a `close(out)`; `ret` is `return nil`. -/
inductive Event (M : Type) where
  | recv (m : M)
  | send (m : M) (ts : Int)
  | close
  | ret
  deriving DecidableEq, Repr

/-- Control points of `Serve`.
* `loop`: the head of `for m := range in`;
* `mark m`: the label `MARK`, before the refill, holding message `m`;
* `test m`: after the refill, at `if t.tokens < 1`;
* `send m`: after `t.tokens--`, at `out <- m`;
* `done`: after `return nil`. -/
inductive Loc (M : Type) where
  | loop
  | mark (m : M)
  | test (m : M)
  | send (m : M)
  | done
  deriving DecidableEq, Repr

/-- The state of a running `Serve`: the two mutable fields of the bucket, the number
of `TimeGetter` calls made so far, what `in` still delivers, the control point and
the operations performed so far (oldest first). -/
structure State (M : Type) where
  tokens : Int
  timestamp : Int
  calls : Nat
  inbox : List M
  loc : Loc M
  trace : List (Event M)

/-- The state after the initialisation `t.tokens = Rate; t.timestamp = TimeGetter()`. -/
def Serve.init {M : Type} (Rate : Int) (tg : TimeGetter) (msgs : List M) : State M :=
  { tokens := Rate, timestamp := tg 0, calls := 1, inbox := msgs, loc := Loc.loop, trace := [] }

/-- The refill, `delta = Rate * (TimeGetter() - t.timestamp);
t.tokens = min(Rate, t.tokens+delta); t.timestamp = TimeGetter()`: the new token
count and the new timestamp, from the two successive clock readings `now1`, `now2`. -/
def Serve.refill (ar : Int → Int) (Rate tokens timestamp now1 now2 : Int) : Int × Int :=
  let delta := ar (Rate * ar (now1 - timestamp))
  (min Rate (ar (tokens + delta)), now2)

/-- One step of `Serve`. -/
def Serve.step {M : Type} (ar : Int → Int) (Rate : Int) (tg : TimeGetter) (s : State M) : State M :=
  match s.loc with
  | Loc.loop =>
    match s.inbox with
    | [] => { s with loc := Loc.done, trace := s.trace ++ [Event.ret] }
    | m :: rest => { s with inbox := rest, loc := Loc.mark m, trace := s.trace ++ [Event.recv m] }
  | Loc.mark m =>
    let r := Serve.refill ar Rate s.tokens s.timestamp (tg s.calls) (tg (s.calls + 1))
    { s with tokens := r.1, timestamp := r.2, calls := s.calls + 2, loc := Loc.test m }
  | Loc.test m =>
    if s.tokens < 1 then
      { s with loc := Loc.mark m }
    else
      { s with tokens := ar (s.tokens - 1), loc := Loc.send m }
  | Loc.send m => { s with loc := Loc.loop, trace := s.trace ++ [Event.send m s.timestamp] }
  | Loc.done => s

/-- The state of `Serve` after `n` steps, on the input `msgs` followed by the close of `in`. -/
def Serve {M : Type} (ar : Int → Int) (Rate : Int) (tg : TimeGetter) (msgs : List M) : Nat → State M
  | 0 => Serve.init Rate tg msgs
  | n + 1 => Serve.step ar Rate tg (Serve ar Rate tg msgs n)

/-- No `int64` operation of the step taken from state `s` overflows: at the refill,
the exact values of `TimeGetter() - t.timestamp`, of `Rate * (...)` and of
`t.tokens + delta` are `int64` values; at the decrement, so is `t.tokens - 1`.  The
other steps do no arithmetic. -/
def Serve.fits {M : Type} (Rate : Int) (tg : TimeGetter) (s : State M) : Bool :=
  match s.loc with
  | Loc.mark _ =>
    decide (InRange (tg s.calls - s.timestamp)) &&
      decide (InRange (Rate * (tg s.calls - s.timestamp))) &&
      decide (InRange (s.tokens + Rate * (tg s.calls - s.timestamp)))
  | Loc.test _ => decide (s.tokens < 1) || decide (InRange (s.tokens - 1))
  | _ => true

/-- The message of a send. -/
def Event.sentMsg {M : Type} : Event M → Option M
  | Event.send m _ => some m
  | _ => none

/-- The message of a receive. -/
def Event.recvMsg {M : Type} : Event M → Option M
  | Event.recv m => some m
  | _ => none

/-- The refill timestamp recorded with a send. -/
def Event.stamp {M : Type} : Event M → Option Int
  | Event.send _ ts => some ts
  | _ => none

/-- Whether the operation is a `close(out)`. -/
def Event.isClose {M : Type} : Event M → Bool
  | Event.close => true
  | _ => false

/-- The messages sent on `out` so far, in order. -/
def sent {M : Type} (s : State M) : List M := s.trace.filterMap Event.sentMsg

/-- The messages received from `in` so far, in order. -/
def received {M : Type} (s : State M) : List M := s.trace.filterMap Event.recvMsg

/-- The refill timestamp in force at each send so far, in order. -/
def stamps {M : Type} (s : State M) : List Int := s.trace.filterMap Event.stamp

/-- The number of `close(out)` performed so far. -/
def closes {M : Type} (s : State M) : Nat := (s.trace.filter Event.isClose).length

/-- The method `(t *TokenBucket) Serve`, reading `Rate` and `TimeGetter` from the
configuration of `t`: the state after `n` steps, or `none` when `TimeGetter` is nil
(the call at the initialisation is a nil dereference). -/
def TokenBucket.Serve {M : Type} (ar : Int → Int) (t : TokenBucket) (msgs : List M) (n : Nat) :
    Option (State M) :=
  match t.config.TimeGetter with
  | some tg => some (rateLimit.Serve ar t.config.Rate tg msgs n)
  | none => none

/-! ## Invariants and inputs used in the proofs -/

/-- The stored timestamp is the value returned by the latest clock call. -/
def ClockInv {M : Type} (tg : TimeGetter) (s : State M) : Prop :=
  1 ≤ s.calls ∧ s.timestamp = tg (s.calls - 1)

/-- The token-count invariant together with the clock invariant it relies on. -/
def TokensInv {M : Type} (Rate : Int) (tg : TimeGetter) (s : State M) : Prop :=
  ClockInv tg s ∧ 0 ≤ s.tokens ∧ s.tokens ≤ Rate

/-- One when a decremented token has not yet been matched by its send. -/
def Loc.sending {M : Type} : Loc M → Int
  | Loc.send _ => 1
  | _ => 0

/-- The tokens the bucket can still spend without a further credit: the positive part
of the token count, plus the token already taken for a send in progress. -/
def credit {M : Type} (s : State M) : Int := max s.tokens 0 + s.loc.sending

/-- The accounting invariant: the token count is an `int64` value not above `Rate`; no
send is stamped later than the current timestamp; the sends stamped `v` together with
the credit left at `v` do not exceed `Rate`; and the sends so far together with the
credit left do not exceed `Rate` tokens per clock value from `tg 0` to the current
timestamp. -/
structure BucketInv {M : Type} (Rate : Int) (tg : TimeGetter) (s : State M) : Prop where
  clock : ClockInv tg s
  range : InRange s.tokens
  le_rate : s.tokens ≤ Rate
  taken : s.loc.sending = 1 → 0 ≤ s.tokens
  start_le : tg 0 ≤ s.timestamp
  stamp_le : ∀ e ∈ stamps s, e ≤ s.timestamp
  per_stamp : ∀ v, ((stamps s).count v : Int) + (if v = s.timestamp then credit s else 0) ≤ Rate
  total : ((stamps s).length : Int) + credit s ≤ Rate * (s.timestamp - tg 0 + 1)
  each : ∀ (k : Nat) (t : Int), (stamps s)[k]? = some t → (k : Int) + 1 ≤ Rate * (t - tg 0 + 1)

/-- The message `Serve` has received and not yet sent. -/
def Loc.holding {M : Type} : Loc M → List M
  | Loc.mark m => [m]
  | Loc.test m => [m]
  | Loc.send m => [m]
  | _ => []

/-- The messages sent, the message held and the messages still to come make up the
input, in order; `out` has not been closed; a `return` is the last operation. -/
structure FifoInv {M : Type} (msgs : List M) (s : State M) : Prop where
  order : sent s ++ s.loc.holding ++ s.inbox = msgs
  recvd : received s = sent s ++ s.loc.holding
  no_close : closes s = 0
  returned : s.loc = Loc.done → s.inbox = [] ∧ ∃ tr, s.trace = tr ++ [Event.ret] ∧ Event.ret ∉ tr
  running : s.loc ≠ Loc.done → Event.ret ∉ s.trace

/-- With `Rate ≤ 0` the token count never exceeds `Rate`, nothing is sent, and `Serve`
is at the loop head with the whole input ahead, or waiting at the refill with the
first message, or has returned on an empty input. -/
structure StarveInv {M : Type} (Rate : Int) (msgs : List M) (s : State M) : Prop where
  le_rate : s.tokens ≤ Rate
  nothing : sent s = []
  place : (s.loc = Loc.loop ∧ s.inbox = msgs) ∨ (∃ m, s.loc = Loc.mark m) ∨
    (∃ m, s.loc = Loc.test m) ∨ (s.loc = Loc.done ∧ msgs = [])

/-- While the clock has kept its start value, every token spent is matched by a send:
the token count, the token taken for a send in progress and the number of sends add
up to `Rate`. -/
structure ConstInv {M : Type} (Rate : Int) (tg : TimeGetter) (s : State M) : Prop where
  stamp : s.timestamp = tg 0
  range : InRange s.tokens
  nonneg : 0 ≤ s.tokens
  spent : s.tokens + s.loc.sending + ((sent s).length : Int) = Rate

/-- The clock whose call number `i` returns `i / 2`: 0, 0, 1, 1, 2, 2, ... -/
def halfClock : TimeGetter := fun i => ((i / 2 : Nat) : Int)

/-- The state in which `Serve` waits for ever on `halfClock` with `Rate = 1` and the
input `[10, 20]`: no token, the second message held, one message sent, and the latest
clock value, read for the timestamp, equal to the value the next refill reads first. -/
structure Stalled (s : State Nat) : Prop where
  tokens : s.tokens = 0
  odd : s.calls % 2 = 1
  stamp : s.timestamp = ((s.calls / 2 : Nat) : Int)
  place : s.loc = Loc.mark 20 ∨ s.loc = Loc.test 20
  one : sent s = [10]

/-- The clock that returns 0 on its first four calls and 1 afterwards. -/
def stepClock : TimeGetter := fun i => if i < 4 then 0 else 1

end rateLimit

namespace pipeline

/-! ## `ConcreteNameGenerator` of the example program -/

/-- The run-time panics an index expression `namesList[x % l]` can raise. -/
inductive Panic where
  | divideByZero
  | indexOutOfRange
  deriving DecidableEq, Repr

/-- The function `ConcreteNameGenerator`: `l := len(namesList) - 1`, and the closure it
returns, as a function of the value `r` drawn by `rand.Int()`.  The remainder `%` of
Go truncates toward zero and panics on a zero divisor; an index outside
`0 .. len(namesList) - 1` panics. -/
def ConcreteNameGenerator (namesList : List String) : Int → Except Panic String :=
  let l : Int := (namesList.length : Int) - 1
  fun r =>
    if l = 0 then
      Except.error Panic.divideByZero
    else
      let i := Int.tmod r l
      match (if 0 ≤ i then namesList[i.toNat]? else none) with
      | some name => Except.ok name
      | none => Except.error Panic.indexOutOfRange

end pipeline

namespace rateLimit

/-! ## General facts about executions -/

/-- Induction over the steps of an execution. -/
theorem Serve.invariant {M : Type} (ar : Int → Int) (Rate : Int) (tg : TimeGetter) (msgs : List M)
    (P : State M → Prop) (h0 : P (Serve.init Rate tg msgs))
    (hstep : ∀ s, P s → P (Serve.step ar Rate tg s)) :
    ∀ n, P (Serve ar Rate tg msgs n) := by
  intro n
  induction n with
  | zero => exact h0
  | succ k ih => exact hstep _ ih

theorem clockInv_step {M : Type} (ar : Int → Int) (Rate : Int) (tg : TimeGetter) (s : State M)
    (h : ClockInv tg s) : ClockInv tg (Serve.step ar Rate tg s) := by
  obtain ⟨tok, ts, calls, inbox, loc, trace⟩ := s
  obtain ⟨h1, h2⟩ := h
  simp only at h1 h2
  cases loc with
  | loop =>
    cases inbox with
    | nil => exact ⟨h1, h2⟩
    | cons m rest => exact ⟨h1, h2⟩
  | mark m =>
    refine ⟨?_, ?_⟩
    · show 1 ≤ calls + 2
      omega
    · show tg (calls + 1) = tg (calls + 2 - 1)
      rfl
  | test m =>
    unfold Serve.step
    simp only
    split
    · exact ⟨h1, h2⟩
    · exact ⟨h1, h2⟩
  | send m => exact ⟨h1, h2⟩
  | done => exact ⟨h1, h2⟩

theorem clockInv {M : Type} (ar : Int → Int) (Rate : Int) (tg : TimeGetter) (msgs : List M) (n : Nat) :
    ClockInv tg (Serve ar Rate tg msgs n) :=
  Serve.invariant ar Rate tg msgs (ClockInv tg) ⟨le_refl 1, rfl⟩ (clockInv_step ar Rate tg) n

theorem min_le_left (a b : Int) : min a b ≤ a := by
  unfold min
  split <;> omega

theorem le_min (a b c : Int) (h1 : c ≤ a) (h2 : c ≤ b) : c ≤ min a b := by
  unfold min
  split <;> omega

/-! ## Facts about `int64` arithmetic -/

theorem int64_inRange (x : Int) : InRange (int64 x) := by
  unfold InRange int64
  omega

theorem int64_of_inRange (x : Int) (h : InRange x) : int64 x = x := by
  unfold InRange at h
  unfold int64
  omega

theorem min_inRange (a b : Int) (ha : InRange a) (hb : InRange b) : InRange (min a b) := by
  unfold min
  split
  · exact ha
  · exact hb

theorem refill_fst_le (ar : Int → Int) (Rate tokens timestamp now1 now2 : Int) :
    (Serve.refill ar Rate tokens timestamp now1 now2).1 ≤ Rate :=
  min_le_left _ _

theorem refill_snd (ar : Int → Int) (Rate tokens timestamp now1 now2 : Int) :
    (Serve.refill ar Rate tokens timestamp now1 now2).2 = now2 := rfl

theorem refill_int64_inRange (Rate tokens timestamp now1 now2 : Int) (hR : InRange Rate) :
    InRange (Serve.refill int64 Rate tokens timestamp now1 now2).1 :=
  min_inRange _ _ hR (int64_inRange _)

/-- A refill with zero elapsed time leaves the token count unchanged. -/
theorem refill_int64_same (Rate tokens timestamp now2 : Int) (ht : InRange tokens)
    (hle : tokens ≤ Rate) :
    (Serve.refill int64 Rate tokens timestamp timestamp now2).1 = tokens := by
  have h0 : int64 0 = 0 := by decide
  unfold Serve.refill
  simp only [sub_self, h0, mul_zero, add_zero, int64_of_inRange tokens ht]
  unfold min
  split <;> omega

/-- When the operations of the refill do not overflow, the `int64` refill keeps the
token count within `0 .. Rate`, for a non-negative rate and a clock that has not gone
back. -/
theorem refill_int64_bounds (Rate tokens timestamp now1 now2 : Int) (hR : 0 ≤ Rate)
    (ht : 0 ≤ tokens) (hnow : timestamp ≤ now1) (h1 : InRange (now1 - timestamp))
    (h2 : InRange (Rate * (now1 - timestamp)))
    (h3 : InRange (tokens + Rate * (now1 - timestamp))) :
    0 ≤ (Serve.refill int64 Rate tokens timestamp now1 now2).1 ∧
      (Serve.refill int64 Rate tokens timestamp now1 now2).1 ≤ Rate := by
  unfold Serve.refill
  simp only [int64_of_inRange _ h1, int64_of_inRange _ h2, int64_of_inRange _ h3]
  refine ⟨?_, min_le_left _ _⟩
  apply le_min _ _ _ hR
  have : 0 ≤ Rate * (now1 - timestamp) := mul_nonneg hR (by omega)
  omega

theorem tokensInv_step {M : Type} (Rate : Int) (tg : TimeGetter) (hR : 0 ≤ Rate)
    (hmono : ∀ i j, i ≤ j → tg i ≤ tg j) (s : State M)
    (h : TokensInv Rate tg s) (hfit : Serve.fits Rate tg s = true) :
    TokensInv Rate tg (Serve.step int64 Rate tg s) := by
  refine ⟨clockInv_step int64 Rate tg s h.1, ?_⟩
  obtain ⟨⟨hc, hts⟩, h0, h1⟩ := h
  obtain ⟨tok, ts, calls, inbox, loc, trace⟩ := s
  simp only at hc hts h0 h1
  cases loc with
  | loop =>
    cases inbox with
    | nil => exact ⟨h0, h1⟩
    | cons m rest => exact ⟨h0, h1⟩
  | mark m =>
    have hnow : ts ≤ tg calls := by
      rw [hts]
      exact hmono _ _ (by omega)
    simp only [Serve.fits, Bool.and_eq_true, decide_eq_true_eq] at hfit
    exact refill_int64_bounds Rate tok ts (tg calls) (tg (calls + 1)) hR h0 hnow
      hfit.1.1 hfit.1.2 hfit.2
  | test m =>
    by_cases hlt : tok < 1
    · have hs : Serve.step int64 Rate tg ⟨tok, ts, calls, inbox, Loc.test m, trace⟩
          = ⟨tok, ts, calls, inbox, Loc.mark m, trace⟩ := by
        simp [Serve.step, hlt]
      rw [hs]
      exact ⟨h0, h1⟩
    · have hs : Serve.step int64 Rate tg ⟨tok, ts, calls, inbox, Loc.test m, trace⟩
          = ⟨int64 (tok - 1), ts, calls, inbox, Loc.send m, trace⟩ := by
        simp [Serve.step, hlt]
      simp only [Serve.fits, Bool.or_eq_true, decide_eq_true_eq] at hfit
      have hr : InRange (tok - 1) := hfit.resolve_left hlt
      rw [hs, int64_of_inRange _ hr]
      show 0 ≤ tok - 1 ∧ tok - 1 ≤ Rate
      omega
  | send m => exact ⟨h0, h1⟩
  | done => exact ⟨h0, h1⟩

theorem tokensInv {M : Type} (Rate : Int) (tg : TimeGetter) (msgs : List M) (hR : 0 ≤ Rate)
    (hmono : ∀ i j, i ≤ j → tg i ≤ tg j) :
    ∀ n, (∀ k, k < n → Serve.fits Rate tg (Serve int64 Rate tg msgs k) = true) →
      TokensInv Rate tg (Serve int64 Rate tg msgs n) := by
  intro n
  induction n with
  | zero =>
    intro _
    exact ⟨⟨le_refl 1, rfl⟩, hR, le_refl Rate⟩
  | succ n ih =>
    intro hfit
    exact tokensInv_step Rate tg hR hmono _ (ih fun k hk => hfit k (by omega))
      (hfit n (by omega))

/-! ## The accounting invariant of the `int64` execution -/

theorem bucketInv_init {M : Type} (Rate : Int) (tg : TimeGetter) (msgs : List M)
    (hR : 0 ≤ Rate) (hRr : InRange Rate) : BucketInv Rate tg (Serve.init Rate tg msgs) := by
  refine ⟨⟨le_refl 1, rfl⟩, hRr, le_refl _, ?_, le_refl _, ?_, ?_, ?_, ?_⟩
  · intro h
    exact hR
  · intro e he
    simp [stamps, Serve.init] at he
  · intro v
    simp only [stamps, Serve.init, credit, Loc.sending, List.filterMap_nil, List.count_nil,
      Nat.cast_zero, zero_add, add_zero, max_eq_left hR]
    split <;> omega
  · simp only [stamps, Serve.init, credit, Loc.sending, List.filterMap_nil, List.length_nil,
      Nat.cast_zero, zero_add, add_zero, max_eq_left hR, sub_self, mul_one, le_refl]
  · intro k t h
    simp [stamps, Serve.init] at h

theorem stamps_mk {M : Type} (tok ts : Int) (calls : Nat) (inbox : List M) (loc : Loc M)
    (trace : List (Event M)) :
    stamps (⟨tok, ts, calls, inbox, loc, trace⟩ : State M) = trace.filterMap Event.stamp := rfl

theorem credit_mk {M : Type} (tok ts : Int) (calls : Nat) (inbox : List M) (loc : Loc M)
    (trace : List (Event M)) :
    credit (⟨tok, ts, calls, inbox, loc, trace⟩ : State M) = max tok 0 + loc.sending := rfl

/-- The invariant only reads the token count, the timestamp, the call count, the
stamps of the sends and whether a send is in progress. -/
theorem BucketInv.congr {M : Type} (Rate : Int) (tg : TimeGetter) (s s' : State M)
    (h : BucketInv Rate tg s) (htok : s'.tokens = s.tokens) (hts : s'.timestamp = s.timestamp)
    (hcalls : s'.calls = s.calls) (hst : stamps s' = stamps s)
    (hsend : s'.loc.sending = s.loc.sending) : BucketInv Rate tg s' := by
  have hcr : credit s' = credit s := by
    unfold credit
    rw [htok, hsend]
  refine ⟨?_, ?_, ?_, ?_, ?_, ?_, ?_, ?_, ?_⟩
  · unfold ClockInv
    rw [hcalls, hts]
    exact h.clock
  · rw [htok]
    exact h.range
  · rw [htok]
    exact h.le_rate
  · rw [htok, hsend]
    exact h.taken
  · rw [hts]
    exact h.start_le
  · rw [hts, hst]
    exact h.stamp_le
  · rw [hts, hst, hcr]
    exact h.per_stamp
  · rw [hts, hst, hcr]
    exact h.total
  · rw [hst]
    exact h.each

theorem bucketInv_refill {M : Type} (Rate : Int) (tg : TimeGetter) (hR : 0 ≤ Rate)
    (hRr : InRange Rate) (hmono : ∀ i j, i ≤ j → tg i ≤ tg j)
    (tok ts : Int) (calls : Nat) (inbox : List M) (m : M) (trace : List (Event M))
    (h : BucketInv Rate tg ⟨tok, ts, calls, inbox, Loc.mark m, trace⟩) :
    BucketInv Rate tg ⟨(Serve.refill int64 Rate tok ts (tg calls) (tg (calls + 1))).1,
      tg (calls + 1), calls + 2, inbox, Loc.test m, trace⟩ := by
  obtain ⟨⟨hc, hts⟩, hrange, hle, -, hstart, hstamp, hper, htotal, heach⟩ := h
  simp only [stamps_mk, credit_mk, Loc.sending, add_zero] at hc hts hrange hle hstart hstamp hper htotal heach
  have hnow1 : ts ≤ tg calls := by
    rw [hts]
    exact hmono _ _ (by omega)
  have hnow2 : tg calls ≤ tg (calls + 1) := hmono _ _ (by omega)
  have hle' := refill_fst_le int64 Rate tok ts (tg calls) (tg (calls + 1))
  have hsame : tg (calls + 1) = ts →
      (Serve.refill int64 Rate tok ts (tg calls) (tg (calls + 1))).1 = tok := by
    intro heq
    have h1 : tg calls = ts := by omega
    rw [h1]
    exact refill_int64_same Rate tok ts _ hrange hle
  have hmax : max (Serve.refill int64 Rate tok ts (tg calls) (tg (calls + 1))).1 0 ≤ Rate :=
    max_le hle' hR
  have hmax0 : 0 ≤ max tok 0 := le_max_right _ _
  refine ⟨⟨?_, ?_⟩, refill_int64_inRange Rate tok ts (tg calls) (tg (calls + 1)) hRr, hle',
    ?_, ?_, ?_, ?_, ?_, ?_⟩
  · show 1 ≤ calls + 2
    omega
  · rfl
  · intro hs
    simp [Loc.sending] at hs
  · show tg 0 ≤ tg (calls + 1)
    omega
  · intro e he
    have := hstamp e he
    show e ≤ tg (calls + 1)
    omega
  · intro v
    simp only [stamps_mk, credit_mk, Loc.sending, add_zero]
    by_cases hv : v = tg (calls + 1)
    · rw [if_pos hv]
      by_cases heq : tg (calls + 1) = ts
      · rw [hsame heq]
        have := hper v
        rw [if_pos (hv.trans heq)] at this
        exact this
      · have hnot : v ∉ trace.filterMap Event.stamp := by
          intro hmem
          have := hstamp v hmem
          omega
        rw [List.count_eq_zero_of_not_mem hnot]
        simpa using hmax
    · rw [if_neg hv]
      have := hper v
      split at this <;> omega
  · simp only [stamps_mk, credit_mk, Loc.sending, add_zero]
    by_cases heq : tg (calls + 1) = ts
    · rw [hsame heq, heq]
      exact htotal
    · have h1 : ts - tg 0 + 1 + 1 ≤ tg (calls + 1) - tg 0 + 1 := by omega
      have h2 := mul_le_mul_of_nonneg_left h1 hR
      have h3 : Rate * (ts - tg 0 + 1 + 1) = Rate * (ts - tg 0 + 1) + Rate := by ring
      omega
  · exact heach

theorem bucketInv_decrement {M : Type} (Rate : Int) (tg : TimeGetter)
    (tok ts : Int) (calls : Nat) (inbox : List M) (m : M) (trace : List (Event M))
    (h : BucketInv Rate tg ⟨tok, ts, calls, inbox, Loc.test m, trace⟩) (hpos : ¬ tok < 1) :
    BucketInv Rate tg ⟨int64 (tok - 1), ts, calls, inbox, Loc.send m, trace⟩ := by
  obtain ⟨hclock, hrange, hle, -, hstart, hstamp, hper, htotal, heach⟩ := h
  simp only [stamps_mk, credit_mk, Loc.sending, add_zero] at hrange hle hstart hstamp hper htotal heach
  have hr : InRange (tok - 1) := by
    unfold InRange at hrange ⊢
    omega
  have hcr : max (tok - 1) 0 + 1 = max tok 0 := by
    rw [max_eq_left (by omega), max_eq_left (by omega)]
    omega
  rw [int64_of_inRange _ hr]
  refine ⟨hclock, hr, ?_, ?_, hstart, hstamp, ?_, ?_, heach⟩
  · show tok - 1 ≤ Rate
    omega
  · intro _
    show 0 ≤ tok - 1
    omega
  · intro v
    simp only [stamps_mk, credit_mk, Loc.sending, hcr]
    exact hper v
  · simp only [stamps_mk, credit_mk, Loc.sending, hcr]
    exact htotal

theorem bucketInv_send {M : Type} (Rate : Int) (tg : TimeGetter)
    (tok ts : Int) (calls : Nat) (inbox : List M) (m : M) (trace : List (Event M))
    (h : BucketInv Rate tg ⟨tok, ts, calls, inbox, Loc.send m, trace⟩) :
    BucketInv Rate tg ⟨tok, ts, calls, inbox, Loc.loop, trace ++ [Event.send m ts]⟩ := by
  obtain ⟨hclock, hrange, hle, htaken, hstart, hstamp, hper, htotal, heach⟩ := h
  simp only [stamps_mk, credit_mk, Loc.sending] at hrange hle htaken hstart hstamp hper htotal heach
  have h0 : 0 ≤ tok := htaken trivial
  rw [max_eq_left h0] at hper htotal
  have hst : (trace ++ [Event.send m ts]).filterMap Event.stamp
      = trace.filterMap Event.stamp ++ [ts] := by
    simp [List.filterMap_append, Event.stamp]
  refine ⟨hclock, hrange, hle, ?_, hstart, ?_, ?_, ?_, ?_⟩
  · intro hs
    simp [Loc.sending] at hs
  · intro e he
    rw [stamps_mk, hst, List.mem_append, List.mem_singleton] at he
    rcases he with he | he
    · exact hstamp e he
    · show e ≤ ts
      omega
  · intro v
    simp only [stamps_mk, credit_mk, Loc.sending, hst, List.count_append, List.count_singleton,
      add_zero, max_eq_left h0]
    have := hper v
    by_cases hv : v = ts
    · subst hv
      simp only [if_true, beq_self_eq_true] at this ⊢
      push_cast
      omega
    · have hv' : (ts == v) = false := by
        simp only [beq_eq_false_iff_ne, ne_eq]
        exact fun h => hv h.symm
      simp only [if_neg hv, hv'] at this ⊢
      simpa using this
  · simp only [stamps_mk, credit_mk, Loc.sending, hst, List.length_append, List.length_singleton,
      add_zero, max_eq_left h0]
    push_cast
    omega
  · intro k t hk
    rw [stamps_mk, hst] at hk
    by_cases hlt : k < (trace.filterMap Event.stamp).length
    · rw [List.getElem?_append_left hlt] at hk
      exact heach k t hk
    · have hk' : k = (trace.filterMap Event.stamp).length := by
        by_contra hne
        have hgt : (trace.filterMap Event.stamp ++ [ts]).length ≤ k := by
          simp only [List.length_append, List.length_singleton]
          omega
        rw [List.getElem?_eq_none hgt] at hk
        exact absurd hk (by simp)
      subst hk'
      simp only [List.getElem?_concat_length, Option.some.injEq] at hk
      subst hk
      omega

theorem bucketInv_step {M : Type} (Rate : Int) (tg : TimeGetter) (hR : 0 ≤ Rate)
    (hRr : InRange Rate) (hmono : ∀ i j, i ≤ j → tg i ≤ tg j) (s : State M)
    (h : BucketInv Rate tg s) : BucketInv Rate tg (Serve.step int64 Rate tg s) := by
  obtain ⟨tok, ts, calls, inbox, loc, trace⟩ := s
  cases loc with
  | loop =>
    cases inbox with
    | nil =>
      refine BucketInv.congr Rate tg _ _ h rfl rfl rfl ?_ rfl
      simp [Serve.step, stamps, List.filterMap_append, Event.stamp]
    | cons m rest =>
      refine BucketInv.congr Rate tg _ _ h rfl rfl rfl ?_ rfl
      simp [Serve.step, stamps, List.filterMap_append, Event.stamp]
  | mark m => exact bucketInv_refill Rate tg hR hRr hmono tok ts calls inbox m trace h
  | test m =>
    by_cases hlt : tok < 1
    · have hs : Serve.step int64 Rate tg ⟨tok, ts, calls, inbox, Loc.test m, trace⟩
          = ⟨tok, ts, calls, inbox, Loc.mark m, trace⟩ := by
        simp [Serve.step, hlt]
      rw [hs]
      exact BucketInv.congr Rate tg _ _ h rfl rfl rfl rfl rfl
    · have hs : Serve.step int64 Rate tg ⟨tok, ts, calls, inbox, Loc.test m, trace⟩
          = ⟨int64 (tok - 1), ts, calls, inbox, Loc.send m, trace⟩ := by
        simp [Serve.step, hlt]
      rw [hs]
      exact bucketInv_decrement Rate tg tok ts calls inbox m trace h hlt
  | send m => exact bucketInv_send Rate tg tok ts calls inbox m trace h
  | done => exact h

theorem bucketInv {M : Type} (Rate : Int) (tg : TimeGetter) (msgs : List M) (n : Nat)
    (hR : 0 ≤ Rate) (hRr : InRange Rate) (hmono : ∀ i j, i ≤ j → tg i ≤ tg j) :
    BucketInv Rate tg (Serve int64 Rate tg msgs n) :=
  Serve.invariant int64 Rate tg msgs (BucketInv Rate tg) (bucketInv_init Rate tg msgs hR hRr)
    (bucketInv_step Rate tg hR hRr hmono) n

/-! ## Order of the messages and the operations on `out` -/

theorem fifoInv_init {M : Type} (Rate : Int) (tg : TimeGetter) (msgs : List M) :
    FifoInv msgs (Serve.init Rate tg msgs) := by
  refine ⟨?_, ?_, ?_, ?_, ?_⟩
  · simp [sent, Serve.init, Loc.holding]
  · simp [received, sent, Serve.init, Loc.holding]
  · simp [closes, Serve.init]
  · intro h
    simp [Serve.init] at h
  · intro _
    simp [Serve.init]

theorem fifoInv_step {M : Type} (ar : Int → Int) (Rate : Int) (tg : TimeGetter) (msgs : List M)
    (s : State M) (h : FifoInv msgs s) : FifoInv msgs (Serve.step ar Rate tg s) := by
  obtain ⟨tok, ts, calls, inbox, loc, trace⟩ := s
  obtain ⟨horder, hrecvd, hclose, hret, hrun⟩ := h
  cases loc with
  | loop =>
    have hnr : Event.ret ∉ trace := hrun (by simp)
    cases inbox with
    | nil =>
      simp only [sent, received, closes, Loc.holding, List.append_nil] at horder hrecvd hclose
      refine ⟨?_, ?_, ?_, ?_, ?_⟩
      · simpa [Serve.step, sent, Loc.holding, List.filterMap_append, Event.sentMsg] using horder
      · simpa [Serve.step, sent, received, Loc.holding, List.filterMap_append, Event.sentMsg,
          Event.recvMsg] using hrecvd
      · simpa [Serve.step, closes, List.filter_append, Event.isClose] using hclose
      · intro _
        exact ⟨rfl, trace, rfl, hnr⟩
      · intro hne
        simp [Serve.step] at hne
    | cons m rest =>
      simp only [sent, received, closes, Loc.holding, List.append_nil] at horder hrecvd hclose
      refine ⟨?_, ?_, ?_, ?_, ?_⟩
      · simpa [Serve.step, sent, Loc.holding, List.filterMap_append, Event.sentMsg] using horder
      · simpa [Serve.step, sent, received, Loc.holding, List.filterMap_append, Event.sentMsg,
          Event.recvMsg] using hrecvd
      · simpa [Serve.step, closes, List.filter_append, Event.isClose] using hclose
      · intro hd
        simp [Serve.step] at hd
      · intro _
        simpa [Serve.step] using hnr
  | mark m =>
    refine ⟨horder, hrecvd, hclose, ?_, ?_⟩
    · intro hd
      simp [Serve.step] at hd
    · intro _
      exact hrun (by simp)
  | test m =>
    by_cases hlt : tok < 1
    · have hs : Serve.step ar Rate tg ⟨tok, ts, calls, inbox, Loc.test m, trace⟩
          = ⟨tok, ts, calls, inbox, Loc.mark m, trace⟩ := by
        simp [Serve.step, hlt]
      rw [hs]
      refine ⟨horder, hrecvd, hclose, ?_, ?_⟩
      · intro hd
        simp at hd
      · intro _
        exact hrun (by simp)
    · have hs : Serve.step ar Rate tg ⟨tok, ts, calls, inbox, Loc.test m, trace⟩
          = ⟨ar (tok - 1), ts, calls, inbox, Loc.send m, trace⟩ := by
        simp [Serve.step, hlt]
      rw [hs]
      refine ⟨horder, hrecvd, hclose, ?_, ?_⟩
      · intro hd
        simp at hd
      · intro _
        exact hrun (by simp)
  | send m =>
    have hnr : Event.ret ∉ trace := hrun (by simp)
    simp only [sent, received, closes, Loc.holding] at horder hrecvd hclose
    refine ⟨?_, ?_, ?_, ?_, ?_⟩
    · simpa [Serve.step, sent, Loc.holding, List.filterMap_append, Event.sentMsg] using horder
    · simpa [Serve.step, sent, received, Loc.holding, List.filterMap_append, Event.sentMsg,
        Event.recvMsg] using hrecvd
    · simpa [Serve.step, closes, List.filter_append, Event.isClose] using hclose
    · intro hd
      simp [Serve.step] at hd
    · intro _
      simpa [Serve.step] using hnr
  | done => exact ⟨horder, hrecvd, hclose, hret, hrun⟩

theorem fifoInv {M : Type} (ar : Int → Int) (Rate : Int) (tg : TimeGetter) (msgs : List M)
    (n : Nat) : FifoInv msgs (Serve ar Rate tg msgs n) :=
  Serve.invariant ar Rate tg msgs (FifoInv msgs) (fifoInv_init Rate tg msgs)
    (fifoInv_step ar Rate tg msgs) n

/-- What has been sent is always a prefix of the input. -/
theorem sent_eq_take {M : Type} (ar : Int → Int) (Rate : Int) (tg : TimeGetter) (msgs : List M)
    (n : Nat) :
    sent (Serve ar Rate tg msgs n) = msgs.take (sent (Serve ar Rate tg msgs n)).length ∧
      (sent (Serve ar Rate tg msgs n)).length ≤ msgs.length := by
  have h := (fifoInv ar Rate tg msgs n).order
  generalize sent (Serve ar Rate tg msgs n) = out at h ⊢
  generalize (Serve ar Rate tg msgs n).loc.holding = held at h
  generalize (Serve ar Rate tg msgs n).inbox = rest at h
  subst h
  constructor
  · simp [List.append_assoc]
  · simp only [List.length_append]
    omega

/-! ## A rate that is not positive -/

theorem starveInv_step {M : Type} (ar : Int → Int) (Rate : Int) (tg : TimeGetter) (msgs : List M)
    (hR : Rate ≤ 0) (s : State M) (h : StarveInv Rate msgs s) :
    StarveInv Rate msgs (Serve.step ar Rate tg s) := by
  obtain ⟨tok, ts, calls, inbox, loc, trace⟩ := s
  obtain ⟨hle, hsent, hplace⟩ := h
  simp only [sent] at hsent
  cases loc with
  | loop =>
    have hin : inbox = msgs := by
      rcases hplace with h | ⟨m, h⟩ | ⟨m, h⟩ | h
      · exact h.2
      · simp at h
      · simp at h
      · simp at h
    cases inbox with
    | nil =>
      refine ⟨hle, ?_, Or.inr (Or.inr (Or.inr ⟨rfl, hin.symm⟩))⟩
      simpa [Serve.step, sent, List.filterMap_append, Event.sentMsg] using hsent
    | cons m rest =>
      refine ⟨hle, ?_, Or.inr (Or.inl ⟨m, rfl⟩)⟩
      simpa [Serve.step, sent, List.filterMap_append, Event.sentMsg] using hsent
  | mark m =>
    exact ⟨refill_fst_le ar Rate tok ts (tg calls) (tg (calls + 1)), hsent,
      Or.inr (Or.inr (Or.inl ⟨m, rfl⟩))⟩
  | test m =>
    have hlt : tok < 1 := by
      simp only at hle
      omega
    have hs : Serve.step ar Rate tg ⟨tok, ts, calls, inbox, Loc.test m, trace⟩
        = ⟨tok, ts, calls, inbox, Loc.mark m, trace⟩ := by
      simp [Serve.step, hlt]
    rw [hs]
    exact ⟨hle, hsent, Or.inr (Or.inl ⟨m, rfl⟩)⟩
  | send m =>
    rcases hplace with h | ⟨m, h⟩ | ⟨m, h⟩ | h
    · simp at h
    · simp at h
    · simp at h
    · simp at h
  | done => exact ⟨hle, hsent, hplace⟩

/-! ## Growth of the call count and of the trace -/

theorem calls_le_step {M : Type} (ar : Int → Int) (Rate : Int) (tg : TimeGetter) (s : State M) :
    s.calls ≤ (Serve.step ar Rate tg s).calls := by
  obtain ⟨tok, ts, calls, inbox, loc, trace⟩ := s
  cases loc with
  | loop => cases inbox <;> exact le_refl _
  | mark m => exact Nat.le_add_right _ _
  | test m =>
    unfold Serve.step
    simp only
    split <;> exact le_refl _
  | send m => exact le_refl _
  | done => exact le_refl _

theorem sent_length_le_step {M : Type} (ar : Int → Int) (Rate : Int) (tg : TimeGetter)
    (s : State M) : (sent s).length ≤ (sent (Serve.step ar Rate tg s)).length := by
  obtain ⟨tok, ts, calls, inbox, loc, trace⟩ := s
  cases loc with
  | loop => cases inbox <;> simp [Serve.step, sent, List.filterMap_append, Event.sentMsg]
  | mark m => exact le_refl _
  | test m =>
    unfold Serve.step
    simp only
    split <;> exact le_refl _
  | send m => simp [Serve.step, sent, List.filterMap_append, Event.sentMsg]
  | done => exact le_refl _

theorem calls_mono {M : Type} (ar : Int → Int) (Rate : Int) (tg : TimeGetter) (msgs : List M)
    (n k : Nat) : (Serve ar Rate tg msgs n).calls ≤ (Serve ar Rate tg msgs (n + k)).calls := by
  induction k with
  | zero => exact le_refl _
  | succ k ih => exact le_trans ih (calls_le_step ar Rate tg _)

theorem sent_length_mono {M : Type} (ar : Int → Int) (Rate : Int) (tg : TimeGetter)
    (msgs : List M) (n k : Nat) :
    (sent (Serve ar Rate tg msgs n)).length ≤ (sent (Serve ar Rate tg msgs (n + k))).length := by
  induction k with
  | zero => exact le_refl _
  | succ k ih => exact le_trans ih (sent_length_le_step ar Rate tg _)

/-! ## A clock that keeps its start value -/

theorem constInv_step {M : Type} (Rate : Int) (tg : TimeGetter) (K : Nat)
    (hconst : ∀ i, i < K → tg i = tg 0) (s : State M)
    (h : s.calls ≤ K → ConstInv Rate tg s) (hK : (Serve.step int64 Rate tg s).calls ≤ K) :
    ConstInv Rate tg (Serve.step int64 Rate tg s) ∧
      (∀ m, s.loc = Loc.mark m → (Serve.step int64 Rate tg s).tokens = s.tokens) := by
  have hs := h (le_trans (calls_le_step int64 Rate tg s) hK)
  obtain ⟨tok, ts, calls, inbox, loc, trace⟩ := s
  obtain ⟨hstamp, hrange, hnonneg, hspent⟩ := hs
  simp only [sent] at hstamp hrange hnonneg hspent
  cases loc with
  | loop =>
    refine ⟨?_, fun m hm => by simp at hm⟩
    cases inbox with
    | nil =>
      refine ⟨hstamp, hrange, hnonneg, ?_⟩
      simpa [Serve.step, sent, Loc.sending, List.filterMap_append, Event.sentMsg] using hspent
    | cons m rest =>
      refine ⟨hstamp, hrange, hnonneg, ?_⟩
      simpa [Serve.step, sent, Loc.sending, List.filterMap_append, Event.sentMsg] using hspent
  | mark m =>
    have hK' : calls + 2 ≤ K := hK
    have h1 : tg calls = ts := by
      rw [hstamp]
      exact hconst calls (by omega)
    have h2 : tg (calls + 1) = tg 0 := hconst (calls + 1) (by omega)
    have hle : tok ≤ Rate := by
      simp only [Loc.sending] at hspent
      omega
    have hsame : (Serve.refill int64 Rate tok ts (tg calls) (tg (calls + 1))).1 = tok := by
      rw [h1]
      exact refill_int64_same Rate tok ts _ hrange hle
    refine ⟨⟨h2, ?_, ?_, ?_⟩, fun _ _ => hsame⟩
    · show InRange (Serve.refill int64 Rate tok ts (tg calls) (tg (calls + 1))).1
      rw [hsame]
      exact hrange
    · show 0 ≤ (Serve.refill int64 Rate tok ts (tg calls) (tg (calls + 1))).1
      rw [hsame]
      exact hnonneg
    · show (Serve.refill int64 Rate tok ts (tg calls) (tg (calls + 1))).1 + _ + _ = Rate
      rw [hsame]
      exact hspent
  | test m =>
    refine ⟨?_, fun m hm => by simp at hm⟩
    by_cases hlt : tok < 1
    · have hs : Serve.step int64 Rate tg ⟨tok, ts, calls, inbox, Loc.test m, trace⟩
          = ⟨tok, ts, calls, inbox, Loc.mark m, trace⟩ := by
        simp [Serve.step, hlt]
      rw [hs]
      exact ⟨hstamp, hrange, hnonneg, hspent⟩
    · have hs : Serve.step int64 Rate tg ⟨tok, ts, calls, inbox, Loc.test m, trace⟩
          = ⟨int64 (tok - 1), ts, calls, inbox, Loc.send m, trace⟩ := by
        simp [Serve.step, hlt]
      have hr : InRange (tok - 1) := by
        unfold InRange at hrange ⊢
        omega
      rw [hs, int64_of_inRange _ hr]
      refine ⟨hstamp, hr, ?_, ?_⟩
      · show 0 ≤ tok - 1
        omega
      · simp only [Loc.sending, sent] at hspent ⊢
        omega
  | send m =>
    refine ⟨⟨hstamp, hrange, hnonneg, ?_⟩, fun m hm => by simp at hm⟩
    simp only [Loc.sending] at hspent
    simp only [Serve.step, sent, Loc.sending, List.filterMap_append, Event.sentMsg,
      List.filterMap_cons, List.filterMap_nil, List.length_append, List.length_singleton]
    push_cast
    omega
  | done => exact ⟨⟨hstamp, hrange, hnonneg, hspent⟩, fun m hm => by simp at hm⟩

theorem constInv {M : Type} (Rate : Int) (tg : TimeGetter) (msgs : List M) (K : Nat)
    (hR : 0 ≤ Rate) (hRr : InRange Rate) (hconst : ∀ i, i < K → tg i = tg 0) (n : Nat) :
    (Serve int64 Rate tg msgs n).calls ≤ K → ConstInv Rate tg (Serve int64 Rate tg msgs n) := by
  refine Serve.invariant int64 Rate tg msgs (fun s => s.calls ≤ K → ConstInv Rate tg s) ?_ ?_ n
  · intro _
    refine ⟨rfl, hRr, hR, ?_⟩
    simp [Serve.init, sent, Loc.sending]
  · intro s h hK
    exact (constInv_step Rate tg K hconst s h hK).1

/-- While the clock keeps its start value and tokens and messages remain, each message
takes four steps: receive, refill, decrement, send. -/
theorem const_run {M : Type} (Rate : Int) (tg : TimeGetter) (msgs : List M) (K : Nat)
    (hRr : InRange Rate) (hconst : ∀ i, i < K → tg i = tg 0) :
    ∀ j : Nat, (j : Int) ≤ Rate → j ≤ msgs.length → 2 * j + 1 ≤ K →
      ∃ trace, Serve int64 Rate tg msgs (4 * j)
          = ⟨Rate - j, tg 0, 2 * j + 1, msgs.drop j, Loc.loop, trace⟩ ∧
        (trace.filterMap Event.sentMsg).length = j := by
  intro j
  induction j with
  | zero =>
    intro _ _ _
    exact ⟨[], by simp [Serve, Serve.init], rfl⟩
  | succ j ih =>
    intro hjR hjN hjK
    obtain ⟨trace, hs, hlen⟩ := ih (by omega) (by omega) (by omega)
    have hdrop : msgs.drop j = msgs[j] :: msgs.drop (j + 1) := List.drop_eq_getElem_cons hjN
    have h4 : 4 * (j + 1) = 4 * j + 1 + 1 + 1 + 1 := by omega
    have h1 : tg (2 * j + 1) = tg 0 := hconst _ (by omega)
    have h2 : tg (2 * j + 1 + 1) = tg 0 := hconst _ (by omega)
    have hr : InRange (Rate - (j : Int)) := by
      unfold InRange at hRr ⊢
      omega
    have hr1 : InRange (Rate - (j : Int) - 1) := by
      unfold InRange at hRr ⊢
      omega
    have hsame : (Serve.refill int64 Rate (Rate - j) (tg 0) (tg 0) (tg 0)).1 = Rate - j :=
      refill_int64_same Rate (Rate - j) (tg 0) (tg 0) hr (by omega)
    have hge : ¬ (Rate - (j : Int) < 1) := by omega
    refine ⟨trace ++ [Event.recv msgs[j]] ++ [Event.send msgs[j] (tg 0)], ?_, ?_⟩
    · rw [h4]
      simp only [Serve, hs, hdrop, Serve.step, h1, h2, hsame, hge, if_false, refill_snd,
        int64_of_inRange _ hr1]
      congr 1
      push_cast
      ring
    · simp [List.filterMap_append, Event.sentMsg, hlen]

/-! ## Properties -/

/-- C1: for every rate `Rate ≥ 0`, every time source whose successive values are
non-decreasing and every input sequence, as long as no `int64` operation of the
execution has overflowed, the token count of `Serve` satisfies `0 ≤ tokens ≤ Rate` at
every point after the initialisation (after each refill, before and after each
decrement). -/
theorem Serve_tokens_bounds {M : Type} (Rate : Int) (tg : TimeGetter) (msgs : List M) (n : Nat)
    (hR : 0 ≤ Rate) (hmono : ∀ i j, i ≤ j → tg i ≤ tg j)
    (hfit : ∀ k, k < n → Serve.fits Rate tg (Serve int64 Rate tg msgs k) = true) :
    0 ≤ (Serve int64 Rate tg msgs n).tokens ∧ (Serve int64 Rate tg msgs n).tokens ≤ Rate :=
  (tokensInv Rate tg msgs hR hmono n hfit).2

theorem Serve_tokens_bounds_witness :
    0 ≤ (Serve int64 2 (fun i => (i : Int) / 3) [10, 20, 30] 14).tokens ∧
      (Serve int64 2 (fun i => (i : Int) / 3) [10, 20, 30] 14).tokens ≤ 2 :=
  Serve_tokens_bounds 2 (fun i => (i : Int) / 3) [10, 20, 30] 14 (by decide)
    (fun i j h => Int.ediv_le_ediv (by decide) (by exact_mod_cast h)) (by decide)

/-- The proviso of C1 is needed: with `Rate = 2^63 - 1` and the clock 0, 1, 1, ... the
multiplication of the first refill is in range but the addition overflows, and the
token count is `-2` afterwards. -/
theorem Serve_tokens_overflow :
    Serve.fits 9223372036854775807 (fun i => if i = 0 then 0 else 1)
        (Serve int64 9223372036854775807 (fun i => if i = 0 then 0 else 1) [10] 1) = false ∧
      (Serve int64 9223372036854775807 (fun i => if i = 0 then 0 else 1) [10] 2).tokens = -2 := by
  decide

theorem sending_nonneg {M : Type} (l : Loc M) : 0 ≤ l.sending := by
  cases l <;> simp [Loc.sending]

theorem credit_nonneg {M : Type} (s : State M) : 0 ≤ credit s :=
  add_nonneg (le_max_right _ _) (sending_nonneg _)

/-- C3: for every rate `Rate ≥ 0` (an `int64` value), every time source whose
successive values are non-decreasing and every input sequence, for each clock value
`v` the number of messages sent on `out` while the refill timestamp equals `v` is at
most `Rate`. -/
theorem Serve_rate_bound {M : Type} (Rate : Int) (tg : TimeGetter) (msgs : List M) (n : Nat)
    (v : Int) (hR : 0 ≤ Rate) (hRr : InRange Rate) (hmono : ∀ i j, i ≤ j → tg i ≤ tg j) :
    ((stamps (Serve int64 Rate tg msgs n)).count v : Int) ≤ Rate := by
  have h := (bucketInv Rate tg msgs n hR hRr hmono).per_stamp v
  have hc := credit_nonneg (Serve int64 Rate tg msgs n)
  split at h <;> omega

theorem Serve_rate_bound_witness :
    ((stamps (Serve int64 2 (fun i => (i : Int) / 8) [10, 20, 30] 14)).count 0 : Int) ≤ 2 :=
  Serve_rate_bound 2 (fun i => (i : Int) / 8) [10, 20, 30] 14 0 (by decide)
    (by unfold InRange; decide)
    (fun i j h => Int.ediv_le_ediv (by decide) (by exact_mod_cast h))

/-- C5: for every rate `Rate ≥ 1` (an `int64` value) and every time source whose
successive values are non-decreasing, with `tg 0` its value at the start of `Serve`,
the `k`-th message sent on `out` (`k ≥ 1`) is sent at a refill timestamp of at least
`tg 0 + ⌈k / Rate⌉ - 1`; in particular with `Rate = 1` the third message is sent no
earlier than 2 time units after the start. -/
theorem Serve_kth_send_time {M : Type} (Rate : Int) (tg : TimeGetter) (msgs : List M) (n : Nat)
    (k : Nat) (t : Int) (hR : 1 ≤ Rate) (hRr : InRange Rate)
    (hmono : ∀ i j, i ≤ j → tg i ≤ tg j) (hk : 1 ≤ k)
    (hkth : (stamps (Serve int64 Rate tg msgs n))[k - 1]? = some t) :
    tg 0 + ⌈(k : ℚ) / (Rate : ℚ)⌉ - 1 ≤ t ∧ (Rate = 1 → k = 3 → tg 0 + 2 ≤ t) := by
  have h := (bucketInv Rate tg msgs n (by omega) hRr hmono).each (k - 1) t hkth
  have hk1 : ((k - 1 : Nat) : Int) + 1 = (k : Int) := by omega
  rw [hk1] at h
  constructor
  · have hceil : ⌈(k : ℚ) / (Rate : ℚ)⌉ ≤ t - tg 0 + 1 := by
      rw [Int.ceil_le]
      have hpos : (0 : ℚ) < (Rate : ℚ) := by exact_mod_cast (by omega : (0 : Int) < Rate)
      rw [div_le_iff₀ hpos]
      have hq : ((k : Int) : ℚ) ≤ ((Rate * (t - tg 0 + 1) : Int) : ℚ) := by exact_mod_cast h
      push_cast at hq ⊢
      linarith
    omega
  · intro h1 h3
    subst h1 h3
    omega

theorem Serve_kth_send_time_witness :
    (((0 - 1) / 2 : Nat) : Int) + ⌈((3 : Nat) : ℚ) / ((1 : Int) : ℚ)⌉ - 1 ≤ 2 ∧
      ((1 : Int) = 1 → (3 : Nat) = 3 → (((0 - 1) / 2 : Nat) : Int) + 2 ≤ 2) :=
  Serve_kth_send_time 1 (fun i => (((i - 1) / 2 : Nat) : Int)) [10, 20, 30] 12 3 2 (by decide)
    (by unfold InRange; decide)
    (fun i j h => Int.ofNat_le.mpr (Nat.div_le_div_right (Nat.sub_le_sub_right h 1)))
    (by decide) (by decide)

/-- With `Rate ≤ 0` nothing is ever sent. -/
theorem starved_sent_nil {M : Type} (ar : Int → Int) (Rate : Int)
    (tg : TimeGetter) (msgs : List M) (n : Nat) (hR : Rate ≤ 0) :
    sent (Serve ar Rate tg msgs n) = [] :=
  (Serve.invariant ar Rate tg msgs (StarveInv Rate msgs)
    ⟨le_refl Rate, rfl, Or.inl ⟨rfl, rfl⟩⟩ (starveInv_step ar Rate tg msgs hR) n).nothing

/-- C6: for every rate `Rate ≤ 0`, every time source (monotonic or not), every input
sequence and whatever the arithmetic, `Serve` never sends a message on `out`: the token
count is below 1 at every point, in particular after every refill, and on a non-empty
input `Serve` never returns, so it reports nothing. -/
theorem Serve_nonpositive_rate_starves {M : Type} (ar : Int → Int) (Rate : Int)
    (tg : TimeGetter) (msgs : List M) (n : Nat) (hR : Rate ≤ 0) :
    sent (Serve ar Rate tg msgs n) = [] ∧ (Serve ar Rate tg msgs n).tokens < 1 ∧
      (msgs ≠ [] → (Serve ar Rate tg msgs n).loc ≠ Loc.done) := by
  have h := Serve.invariant ar Rate tg msgs (StarveInv Rate msgs)
    ⟨le_refl Rate, rfl, Or.inl ⟨rfl, rfl⟩⟩ (starveInv_step ar Rate tg msgs hR) n
  refine ⟨h.nothing, ?_, ?_⟩
  · have := h.le_rate
    omega
  · intro hne hd
    rcases h.place with h1 | ⟨m, h1⟩ | ⟨m, h1⟩ | h1
    · rw [hd] at h1
      simp at h1
    · rw [hd] at h1
      simp at h1
    · rw [hd] at h1
      simp at h1
    · exact hne h1.2

theorem Serve_nonpositive_rate_starves_witness :
    sent (Serve int64 0 (fun i => (i : Int)) [10, 20] 50) = [] ∧
      (Serve int64 0 (fun i => (i : Int)) [10, 20] 50).tokens < 1 ∧
      (([10, 20] : List Nat) ≠ [] → (Serve int64 0 (fun i => (i : Int)) [10, 20] 50).loc ≠ Loc.done) :=
  Serve_nonpositive_rate_starves int64 0 (fun i => (i : Int)) [10, 20] 50 (by decide)

/-- C4, as the code has it: `Serve` never closes `out`.  At every point of every
execution the number of `close(out)` performed is zero; when `Serve` is at the loop
head and `in` is closed with nothing left to deliver, its next step is `return nil`;
and once it has returned, every message of the input has been sent, in order, the
return is the last operation and comes after the last send, and `out` is still open. -/
theorem Serve_never_closes_out {M : Type} (ar : Int → Int) (Rate : Int) (tg : TimeGetter)
    (msgs : List M) (n : Nat) :
    closes (Serve ar Rate tg msgs n) = 0 ∧
      ((Serve ar Rate tg msgs n).loc = Loc.loop ∧ (Serve ar Rate tg msgs n).inbox = [] →
        (Serve ar Rate tg msgs (n + 1)).loc = Loc.done ∧
          (Serve ar Rate tg msgs (n + 1)).trace = (Serve ar Rate tg msgs n).trace ++ [Event.ret]) ∧
      ((Serve ar Rate tg msgs n).loc = Loc.done →
        sent (Serve ar Rate tg msgs n) = msgs ∧
          ∃ tr, (Serve ar Rate tg msgs n).trace = tr ++ [Event.ret] ∧ Event.ret ∉ tr) := by
  have h := fifoInv ar Rate tg msgs n
  refine ⟨h.no_close, ?_, ?_⟩
  · rintro ⟨hl, hi⟩
    show (Serve.step ar Rate tg (Serve ar Rate tg msgs n)).loc = Loc.done ∧
      (Serve.step ar Rate tg (Serve ar Rate tg msgs n)).trace = _
    generalize Serve ar Rate tg msgs n = s at hl hi
    obtain ⟨tok, ts, calls, inbox, loc, trace⟩ := s
    simp only at hl hi
    subst hl hi
    exact ⟨rfl, rfl⟩
  · intro hd
    obtain ⟨hin, htr⟩ := h.returned hd
    refine ⟨?_, htr⟩
    have ho := h.order
    rw [hd, hin] at ho
    simpa [Loc.holding] using ho

/-- C4 fails as stated: on the input `[7]` with `Rate = 1`, `Serve` has returned after
five steps, the operations it performed are one receive, one send and the return, and
the number of `close(out)` is zero, not one. -/
theorem Serve_returns_without_close :
    (Serve int64 1 (fun _ => 0) [7] 5).trace = [Event.recv 7, Event.send 7 0, Event.ret] ∧
      (Serve int64 1 (fun _ => 0) [7] 5).loc = Loc.done ∧
      closes (Serve int64 1 (fun _ => 0) [7] 5) ≠ 1 := by
  decide

/-- C7: let the rate be `Rate ≥ 0` (an `int64` value) and let the time source return
the value it returned at the start of `Serve` on each of its first `K` calls.  Then at
every point reached with at most `K` calls made: the messages sent are the first `j`
messages of the input for a `j ≤ min(Rate, N)`, the bucket having started full (token
count, token taken for a send in progress and sends add up to `Rate`); from step
`4 * min(Rate, N)` on they are exactly the first `min(Rate, N)` messages, so nothing
more is admitted before the clock advances; and every refill made so far has left the
token count unchanged. -/
theorem Serve_constant_clock {M : Type} (Rate : Int) (tg : TimeGetter) (msgs : List M)
    (K n : Nat) (hR : 0 ≤ Rate) (hRr : InRange Rate) (hconst : ∀ i, i < K → tg i = tg 0)
    (hn : (Serve int64 Rate tg msgs n).calls ≤ K) :
    (∃ j, j ≤ Nat.min Rate.toNat msgs.length ∧ sent (Serve int64 Rate tg msgs n) = msgs.take j ∧
        (Serve int64 Rate tg msgs n).tokens + (Serve int64 Rate tg msgs n).loc.sending + j = Rate) ∧
      (4 * Nat.min Rate.toNat msgs.length ≤ n →
        sent (Serve int64 Rate tg msgs n) = msgs.take (Nat.min Rate.toNat msgs.length)) ∧
      (∀ k m, k < n → (Serve int64 Rate tg msgs k).loc = Loc.mark m →
        (Serve int64 Rate tg msgs (k + 1)).tokens = (Serve int64 Rate tg msgs k).tokens) := by
  have hinv := constInv Rate tg msgs K hR hRr hconst n hn
  have htake := sent_eq_take int64 Rate tg msgs n
  have hsend := sending_nonneg (Serve int64 Rate tg msgs n).loc
  have hle : (sent (Serve int64 Rate tg msgs n)).length ≤ Nat.min Rate.toNat msgs.length := by
    have h1 := hinv.spent
    have h2 := hinv.nonneg
    have h3 : (sent (Serve int64 Rate tg msgs n)).length ≤ Rate.toNat := by omega
    exact Nat.le_min.mpr ⟨h3, htake.2⟩
  refine ⟨⟨_, hle, htake.1, hinv.spent⟩, ?_, ?_⟩
  · intro h4
    generalize hmn : Nat.min Rate.toNat msgs.length = mn at h4 hle
    have hmnR : mn ≤ Rate.toNat := hmn ▸ Nat.min_le_left _ _
    have hmnN : mn ≤ msgs.length := hmn ▸ Nat.min_le_right _ _
    have hK : 2 * mn + 1 ≤ K := by
      by_contra hlt
      have hc1 := (clockInv int64 Rate tg msgs n).1
      obtain ⟨trace, hs, -⟩ := const_run Rate tg msgs K hRr hconst ((K - 1) / 2)
        (by omega) (by omega) (by omega)
      have hjN : (K - 1) / 2 < msgs.length := by omega
      have hdrop : msgs.drop ((K - 1) / 2) = msgs[(K - 1) / 2] :: msgs.drop ((K - 1) / 2 + 1) :=
        List.drop_eq_getElem_cons hjN
      have hcalls : (Serve int64 Rate tg msgs (4 * ((K - 1) / 2) + 1 + 1)).calls
          = 2 * ((K - 1) / 2) + 1 + 2 := by
        simp only [Serve, hs, hdrop, Serve.step]
      have hmono := calls_mono int64 Rate tg msgs (4 * ((K - 1) / 2) + 1 + 1)
        (n - (4 * ((K - 1) / 2) + 1 + 1))
      have hn' : 4 * ((K - 1) / 2) + 1 + 1 + (n - (4 * ((K - 1) / 2) + 1 + 1)) = n := by omega
      rw [hn', hcalls] at hmono
      omega
    obtain ⟨trace, hs, hlen⟩ := const_run Rate tg msgs K hRr hconst mn (by omega) hmnN hK
    have hmono := sent_length_mono int64 Rate tg msgs (4 * mn) (n - 4 * mn)
    have hn' : 4 * mn + (n - 4 * mn) = n := by omega
    rw [hn', hs] at hmono
    simp only [sent] at hmono
    rw [hlen] at hmono
    have heq : (sent (Serve int64 Rate tg msgs n)).length = mn := le_antisymm hle hmono
    rw [← heq]
    exact htake.1
  · intro k m hk hm
    have hmono := calls_mono int64 Rate tg msgs (k + 1) (n - (k + 1))
    have hn' : k + 1 + (n - (k + 1)) = n := by omega
    rw [hn'] at hmono
    exact (constInv_step Rate tg K hconst (Serve int64 Rate tg msgs k)
      (constInv Rate tg msgs K hR hRr hconst k) (le_trans hmono hn)).2 m hm

theorem Serve_constant_clock_witness :
    (∃ j, j ≤ Nat.min (2 : Int).toNat [10, 20, 30].length ∧
        sent (Serve int64 2 (fun i => ((i / 100 : Nat) : Int)) [10, 20, 30] 30) = [10, 20, 30].take j ∧
        (Serve int64 2 (fun i => ((i / 100 : Nat) : Int)) [10, 20, 30] 30).tokens +
          (Serve int64 2 (fun i => ((i / 100 : Nat) : Int)) [10, 20, 30] 30).loc.sending + j = 2) ∧
      (4 * Nat.min (2 : Int).toNat [10, 20, 30].length ≤ 30 →
        sent (Serve int64 2 (fun i => ((i / 100 : Nat) : Int)) [10, 20, 30] 30)
          = [10, 20, 30].take (Nat.min (2 : Int).toNat [10, 20, 30].length)) ∧
      (∀ k m, k < 30 →
        (Serve int64 2 (fun i => ((i / 100 : Nat) : Int)) [10, 20, 30] k).loc = Loc.mark m →
        (Serve int64 2 (fun i => ((i / 100 : Nat) : Int)) [10, 20, 30] (k + 1)).tokens
          = (Serve int64 2 (fun i => ((i / 100 : Nat) : Int)) [10, 20, 30] k).tokens) :=
  Serve_constant_clock 2 (fun i => ((i / 100 : Nat) : Int)) [10, 20, 30] 100 30 (by decide)
    (by unfold InRange; decide)
    (fun i hi => by
      show ((i / 100 : Nat) : Int) = ((0 / 100 : Nat) : Int)
      rw [Nat.div_eq_of_lt hi])
    (by decide)

theorem stalled_step (s : State Nat) (h : Stalled s) :
    Stalled (Serve.step int64 1 halfClock s) := by
  obtain ⟨tok, ts, calls, inbox, loc, trace⟩ := s
  obtain ⟨htok, hodd, hstamp, hplace, hone⟩ := h
  simp only at htok hodd hstamp hplace
  subst htok
  rcases hplace with hl | hl
  · subst hl
    have h1 : halfClock calls = ts := by
      rw [hstamp]
      rfl
    have hsame : (Serve.refill int64 1 0 ts (halfClock calls) (halfClock (calls + 1))).1 = 0 := by
      rw [h1]
      exact refill_int64_same 1 0 ts _ (by unfold InRange; decide) (by decide)
    refine ⟨hsame, ?_, ?_, Or.inr rfl, hone⟩
    · show (calls + 2) % 2 = 1
      omega
    · show (((calls + 1) / 2 : Nat) : Int) = (((calls + 2) / 2 : Nat) : Int)
      have : (calls + 1) / 2 = (calls + 2) / 2 := by omega
      rw [this]
  · subst hl
    exact ⟨rfl, hodd, hstamp, Or.inl rfl, hone⟩

theorem stalled_from_five (k : Nat) : Stalled (Serve int64 1 halfClock [10, 20] (5 + k)) := by
  induction k with
  | zero => exact ⟨by decide, by decide, by decide, by decide, by decide⟩
  | succ k ih => exact stalled_step _ ih

/-- C2, at the failing input: `halfClock` is non-decreasing and advances for ever, yet
with `Rate = 1` and the input `[10, 20]` the second message is never sent on `out`:
at every step at most the first message has been sent and `Serve` has not returned.
Each refill reads the clock twice, and when the clock advances between the two reads
the refill credits no token for the time the timestamp moves by. -/
theorem Serve_stalls_on_advancing_clock :
    (∀ i j, i ≤ j → halfClock i ≤ halfClock j) ∧ (∀ i, halfClock i < halfClock (i + 2)) ∧
      ∀ n, (sent (Serve int64 1 halfClock [10, 20] n) = [] ∨
          sent (Serve int64 1 halfClock [10, 20] n) = [10]) ∧
        (Serve int64 1 halfClock [10, 20] n).loc ≠ Loc.done := by
  refine ⟨?_, ?_, ?_⟩
  · intro i j h
    exact Int.ofNat_le.mpr (Nat.div_le_div_right h)
  · intro i
    show (((i / 2 : Nat)) : Int) < (((i + 2) / 2 : Nat) : Int)
    have : i / 2 < (i + 2) / 2 := by omega
    exact_mod_cast this
  · intro n
    by_cases hn : 5 ≤ n
    · have h := stalled_from_five (n - 5)
      have h5 : 5 + (n - 5) = n := by omega
      rw [h5] at h
      refine ⟨Or.inr h.one, ?_⟩
      intro hd
      rcases h.place with hp | hp
      · rw [hd] at hp
        simp at hp
      · rw [hd] at hp
        simp at hp
    · have hcases : n = 0 ∨ n = 1 ∨ n = 2 ∨ n = 3 ∨ n = 4 := by omega
      rcases hcases with h | h | h | h | h <;> subst h <;> decide

/-- C9, at the failing input: `stepClock` is non-decreasing, and with `Rate = 1` and the
input `[10, 20]` the refill made in step 6 starts from 0 tokens and the timestamp 0,
reads the clock value 0 for the elapsed time and the value 1 for the new timestamp,
and leaves 0 tokens, whereas
`min(Rate, tokens_before + Rate * (timestamp_after - timestamp_before))` is 1; the
refill after it reads 1 against the timestamp 1 and credits nothing either, so the
time unit between the two timestamps is lost. -/
theorem Serve_refill_drops_elapsed_time :
    (∀ i j, i ≤ j → stepClock i ≤ stepClock j) ∧
      (Serve int64 1 stepClock [10, 20] 5).loc = Loc.mark 20 ∧
      (Serve int64 1 stepClock [10, 20] 5).tokens = 0 ∧
      (Serve int64 1 stepClock [10, 20] 5).timestamp = 0 ∧
      (Serve int64 1 stepClock [10, 20] 6).loc = Loc.test 20 ∧
      (Serve int64 1 stepClock [10, 20] 6).timestamp = 1 ∧
      (Serve int64 1 stepClock [10, 20] 6).tokens = 0 ∧
      (Serve int64 1 stepClock [10, 20] 6).tokens ≠
        min 1 ((Serve int64 1 stepClock [10, 20] 5).tokens
          + 1 * ((Serve int64 1 stepClock [10, 20] 6).timestamp
            - (Serve int64 1 stepClock [10, 20] 5).timestamp)) ∧
      (Serve int64 1 stepClock [10, 20] 8).tokens = 0 ∧
      Serve.refill int64 1 0 0 0 1 = (0, 1) := by
  refine ⟨?_, by decide⟩
  intro i j h
  unfold stepClock
  split <;> split <;> omega

/-- C8 fails as stated: a `Config` with `Rate = 0`, and one with `Rate = -3`, are
accepted by `NewRateLimiter`, which returns a limiter holding that rate. -/
theorem NewRateLimiter_accepts_nonpositive_rate :
    (∃ t, NewRateLimiter (fun i => (i : Int)) ⟨TokenBucketAlgorithm, none, 500000000, 0⟩ = some t ∧
        t.config.Rate = 0) ∧
      (∃ t, NewRateLimiter (fun i => (i : Int)) ⟨TokenBucketAlgorithm, none, 500000000, -3⟩ = some t ∧
        t.config.Rate = -3) :=
  ⟨⟨_, rfl, rfl⟩, ⟨_, rfl, rfl⟩⟩

/-- C8, as the code has it: `NewRateLimiter` does not validate `Rate`.  For every
`Config` with `Rate ≤ 0` whose algorithm is `TokenBucketAlgorithm` it returns a limiter
that holds this rate and a time source (the wall clock when none was given), and this
limiter, served on any input, never sends a message. -/
theorem NewRateLimiter_no_rate_validation {M : Type} (ar : Int → Int) (wallClock : TimeGetter)
    (c : Config) (msgs : List M) (n : Nat) (hR : c.Rate ≤ 0)
    (hA : c.Algorithm = TokenBucketAlgorithm) :
    ∃ t st, NewRateLimiter wallClock c = some t ∧ t.config.Rate = c.Rate ∧
      t.config.TimeGetter = some (c.TimeGetter.getD wallClock) ∧
      t.Serve ar msgs n = some st ∧ sent st = [] := by
  obtain ⟨alg, tgo, wait, rate⟩ := c
  simp only at hR hA
  subst hA
  cases tgo with
  | none =>
    exact ⟨_, _, rfl, rfl, rfl, rfl,
      (starved_sent_nil ar rate wallClock msgs n hR)⟩
  | some tg =>
    exact ⟨_, _, rfl, rfl, rfl, rfl,
      (starved_sent_nil ar rate tg msgs n hR)⟩

theorem NewRateLimiter_no_rate_validation_witness :
    ∃ t st, NewRateLimiter (fun i => (i : Int)) ⟨TokenBucketAlgorithm, none, 500000000, 0⟩ = some t ∧
      t.config.Rate = (⟨TokenBucketAlgorithm, none, 500000000, 0⟩ : Config).Rate ∧
      t.config.TimeGetter = some
        ((⟨TokenBucketAlgorithm, none, 500000000, 0⟩ : Config).TimeGetter.getD (fun i => (i : Int))) ∧
      t.Serve int64 [10, 20] 50 = some st ∧ sent st = [] :=
  NewRateLimiter_no_rate_validation int64 (fun i => (i : Int))
    ⟨TokenBucketAlgorithm, none, 500000000, 0⟩ [10, 20] 50 (by decide) rfl

end rateLimit

namespace pipeline

/-- C10: for every names list of length `n` and every non-negative draw `r`, the
function returned by `ConcreteNameGenerator` returns a name without panicking if and
only if `n ≥ 2`, and then it returns `namesList[r mod (n - 1)]`, an index below
`n - 1`, so the last position of the list is never read; with the list
`["Alice", "Bob"]` every call returns `"Alice"`, and on a one-element list the call
panics with a division by zero. -/
theorem ConcreteNameGenerator_index_safety (namesList : List String) (r : Int) (hr : 0 ≤ r) :
    ((∃ name, ConcreteNameGenerator namesList r = Except.ok name) ↔ 2 ≤ namesList.length) ∧
      (2 ≤ namesList.length →
        (r % ((namesList.length : Int) - 1)).toNat < namesList.length - 1 ∧
          ∃ name, namesList[(r % ((namesList.length : Int) - 1)).toNat]? = some name ∧
            ConcreteNameGenerator namesList r = Except.ok name) ∧
      ConcreteNameGenerator ["Alice", "Bob"] r = Except.ok "Alice" ∧
      (∀ name, ConcreteNameGenerator [name] r = Except.error Panic.divideByZero) := by
  have hbig : 2 ≤ namesList.length →
      (r % ((namesList.length : Int) - 1)).toNat < namesList.length - 1 ∧
        ∃ name, namesList[(r % ((namesList.length : Int) - 1)).toNat]? = some name ∧
          ConcreteNameGenerator namesList r = Except.ok name := by
    intro h2
    have hl : (0 : Int) < (namesList.length : Int) - 1 := by omega
    have hne : ¬ ((namesList.length : Int) - 1 = 0) := by omega
    have hmod : Int.tmod r ((namesList.length : Int) - 1) = r % ((namesList.length : Int) - 1) :=
      Int.tmod_eq_emod hr (le_of_lt hl)
    have h0 : 0 ≤ r % ((namesList.length : Int) - 1) := Int.emod_nonneg r (ne_of_gt hl)
    have h1 : r % ((namesList.length : Int) - 1) < (namesList.length : Int) - 1 :=
      Int.emod_lt_of_pos r hl
    have hidx : (r % ((namesList.length : Int) - 1)).toNat < namesList.length - 1 := by omega
    have hlt : (r % ((namesList.length : Int) - 1)).toNat < namesList.length := by omega
    refine ⟨hidx, namesList[(r % ((namesList.length : Int) - 1)).toNat], ?_, ?_⟩
    · exact List.getElem?_eq_getElem hlt
    · unfold ConcreteNameGenerator
      simp only [hne, if_false, hmod, h0, if_true, List.getElem?_eq_getElem hlt]
  refine ⟨⟨?_, fun h2 => ?_⟩, hbig, ?_, ?_⟩
  · rintro ⟨name, hname⟩
    by_contra hlt
    have hcases : namesList.length = 0 ∨ namesList.length = 1 := by omega
    rcases hcases with h | h
    · have hnil : namesList = [] := List.length_eq_zero.mp h
      subst hnil
      simp [ConcreteNameGenerator] at hname
    · unfold ConcreteNameGenerator at hname
      simp [h] at hname
  · obtain ⟨-, name, -, hname⟩ := hbig h2
    exact ⟨name, hname⟩
  · simp [ConcreteNameGenerator]
  · intro name
    simp [ConcreteNameGenerator]

theorem ConcreteNameGenerator_index_safety_witness :
    ((∃ name, ConcreteNameGenerator ["Alice", "Bob", "Carol"] 7 = Except.ok name) ↔
        2 ≤ ["Alice", "Bob", "Carol"].length) ∧
      (2 ≤ ["Alice", "Bob", "Carol"].length →
        ((7 : Int) % ((["Alice", "Bob", "Carol"].length : Int) - 1)).toNat
            < ["Alice", "Bob", "Carol"].length - 1 ∧
          ∃ name, ["Alice", "Bob", "Carol"][((7 : Int) %
              ((["Alice", "Bob", "Carol"].length : Int) - 1)).toNat]? = some name ∧
            ConcreteNameGenerator ["Alice", "Bob", "Carol"] 7 = Except.ok name) ∧
      ConcreteNameGenerator ["Alice", "Bob"] 7 = Except.ok "Alice" ∧
      (∀ name, ConcreteNameGenerator [name] 7 = Except.error Panic.divideByZero) :=
  ConcreteNameGenerator_index_safety ["Alice", "Bob", "Carol"] 7 (by decide)

end pipeline
